import Mathlib

/-!
Verification development for the `rename` command-line utility
(`src/main.cpp`).

The program is a single pipeline (`rename(arguments)`): compile the regex
pattern, resolve the base path, enumerate regular files (optionally
recursively), sort the materialized entry list, and for each entry apply
`std::regex_replace` to the filename, report, and perform the filesystem
rename with per-entry error isolation.

The embedding below models:
  * the ECMAScript regex subset actually exercised by the program
    (literals, escapes, `\d`/`\w`/`\s` classes, `.`, capturing groups,
    `*`/`+`/`?` quantifiers, alternation) as an AST `Re` with a
    backtracking matcher, leftmost search, and the `std::regex_replace`
    output loop with `$N` format expansion;
  * `std::regex` construction as `compileRegex`, which can fail (the
    `std::regex_error` path of the code);
  * filesystem paths as component lists (`Path`), the filesystem snapshot
    as the list of regular-file paths (`FS`), and the OS-level
    `std::filesystem::rename` as an abstract oracle `OsRename`, since its
    success or failure is decided by the operating system;
  * the pipeline itself (`renameRun` / `renameLoop` / `processEntry`),
    mirroring the control flow of `rename()` in `main.cpp`, with
    `stdout`/`stderr` modelled as accumulated lines and `exit(EXIT_FAILURE)`
    as the `fatal` outcome.
-/

namespace Rename

/-! ## Regex abstract syntax (`std::regex`, ECMAScript grammar subset) -/

/-- Regex AST for the ECMAScript subset used through `std::regex`. -/
inductive Re where
  | eps
  | lit (c : Char)
  | digitCls
  | wordCls
  | spaceCls
  | anyCls
  | seq (a b : Re)
  | alt (a b : Re)
  | star (a : Re)
  | plus (a : Re)
  | opt (a : Re)
  | group (idx : Nat) (a : Re)
deriving DecidableEq

/-- Capture environment: group index paired with captured text; the most
recent binding of a group shadows older ones. -/
abbrev Caps := List (Nat × String)

/-- Text of capture group `n`; the empty string if the group did not
participate in the match (ECMAScript semantics for `$N`). -/
def grpGet (caps : Caps) (n : Nat) : String :=
  (caps.lookup n).getD ""

/-- Does a single character match a character class of the AST? -/
def clsMatch : Re → Char → Bool
  | .digitCls, c => c.isDigit
  | .wordCls, c => c.isAlphanum || c = '_'
  | .spaceCls, c => c = ' ' || c = '\t' || c = '\n' || c = '\r' || c = '\x0b' || c = '\x0c'
  | .anyCls, c => !(c = '\n' || c = '\r')
  | _, _ => false

/-- Backtracking matcher.  `mtch fuel r s caps` returns, in ECMAScript
priority order (greedy first), the list of possible outcomes
`(remaining suffix, captures)` of matching `r` against some front part
of `s`.  The head of the list is the match `std::regex` selects.  `fuel`
bounds the recursion depth. -/
def mtch : Nat → Re → List Char → Caps → List (List Char × Caps)
  | 0, _, _, _ => []
  | _ + 1, .eps, s, caps => [(s, caps)]
  | _ + 1, .lit c, s, caps =>
    match s with
    | [] => []
    | x :: rest => if x = c then [(rest, caps)] else []
  | _ + 1, .digitCls, s, caps =>
    match s with
    | [] => []
    | x :: rest => if clsMatch .digitCls x then [(rest, caps)] else []
  | _ + 1, .wordCls, s, caps =>
    match s with
    | [] => []
    | x :: rest => if clsMatch .wordCls x then [(rest, caps)] else []
  | _ + 1, .spaceCls, s, caps =>
    match s with
    | [] => []
    | x :: rest => if clsMatch .spaceCls x then [(rest, caps)] else []
  | _ + 1, .anyCls, s, caps =>
    match s with
    | [] => []
    | x :: rest => if clsMatch .anyCls x then [(rest, caps)] else []
  | f + 1, .seq a b, s, caps =>
    (mtch f a s caps).flatMap (fun pr => mtch f b pr.1 pr.2)
  | f + 1, .alt a b, s, caps =>
    mtch f a s caps ++ mtch f b s caps
  | f + 1, .star a, s, caps =>
    ((mtch f a s caps).flatMap
      (fun pr => if pr.1.length < s.length then mtch f (.star a) pr.1 pr.2 else []))
      ++ [(s, caps)]
  | f + 1, .plus a, s, caps =>
    mtch f (.seq a (.star a)) s caps
  | f + 1, .opt a, s, caps =>
    mtch f a s caps ++ [(s, caps)]
  | f + 1, .group n a, s, caps =>
    (mtch f a s caps).map
      (fun pr => (pr.1, (n, String.mk (s.take (s.length - pr.1.length))) :: pr.2))

/-- Structural size of a regex, used only to choose a generous fuel. -/
def reSize : Re → Nat
  | .eps | .lit _ | .digitCls | .wordCls | .spaceCls | .anyCls => 1
  | .seq a b | .alt a b => reSize a + reSize b + 1
  | .star a | .opt a => reSize a + 1
  | .plus a => 2 * reSize a + 3
  | .group _ a => reSize a + 1

/-- Fuel sufficient for `mtch` on input `s`. -/
def matchFuel (r : Re) (s : List Char) : Nat :=
  (reSize r + 2) * (s.length + 2)

/-- The match `std::regex_search` selects at this exact position:
the first outcome of the prioritized backtracking matcher. -/
def matchAt (r : Re) (s : List Char) : Option (List Char × Caps) :=
  (mtch (matchFuel r s) r s []).head?

/-- Leftmost search (`std::regex_search`): try to match at each position,
earliest position wins.  Returns `(text before the match, matched text,
captures, text after the match)`. -/
def searchFrom (r : Re) : List Char → Option (List Char × List Char × Caps × List Char)
  | [] =>
    match matchAt r [] with
    | some (rest, caps) => some ([], ([] : List Char).take (0 - rest.length), caps, rest)
    | none => none
  | c :: s' =>
    match matchAt r (c :: s') with
    | some (rest, caps) =>
      some ([], (c :: s').take ((c :: s').length - rest.length), caps, rest)
    | none =>
      match searchFrom r s' with
      | none => none
      | some (pre, m, caps, rest) => some (c :: pre, m, caps, rest)

/-- Numeric value of a decimal digit character. -/
def digitVal (c : Char) : Nat := c.toNat - '0'.toNat

/-- Worker for `expandFmt`; the fuel (first `Nat`) bounds the recursion and
is always at least the length of the remaining format text. -/
def expandFmtF (matched : String) (caps : Caps) : Nat → List Char → List Char
  | 0, s => s
  | _ + 1, [] => []
  | f + 1, '$' :: rest =>
    match rest with
    | [] => ['$']
    | d1 :: rest2 =>
      if d1 = '$' then '$' :: expandFmtF matched caps f rest2
      else if d1 = '&' then matched.data ++ expandFmtF matched caps f rest2
      else if d1.isDigit then
        match rest2 with
        | [] => (grpGet caps (digitVal d1)).data
        | d2 :: rest3 =>
          if d2.isDigit then
            (grpGet caps (10 * digitVal d1 + digitVal d2)).data
              ++ expandFmtF matched caps f rest3
          else (grpGet caps (digitVal d1)).data ++ expandFmtF matched caps f rest2
      else '$' :: expandFmtF matched caps f rest
  | f + 1, c :: rest => c :: expandFmtF matched caps f rest

/-- Expansion of the replacement format string (`format_default` of
`std::regex_replace`): `$N`/`$NN` expand to the capture, `$&` to the whole
match, `$$` to a literal dollar; everything else is copied verbatim. -/
def expandFmt (matched : String) (caps : Caps) (fmt : List Char) : List Char :=
  expandFmtF matched caps fmt.length fmt

/-- The output loop of `std::regex_replace` over `sregex_iterator`:
copy the text before each successive leftmost match, emit the expanded
format for the match, and continue after it (advancing one character
after a zero-length match); the trailing unmatched suffix is copied.
`fuel` bounds the number of matches processed. -/
def replaceLoop (r : Re) (fmt : List Char) : Nat → List Char → List Char
  | 0, s => s
  | f + 1, s =>
    match searchFrom r s with
    | none => s
    | some (pre, m, caps, rest) =>
      let rep := expandFmt (String.mk m) caps fmt
      if m.isEmpty then
        match rest with
        | [] => pre ++ rep
        | c :: rest2 => pre ++ rep ++ c :: replaceLoop r fmt f rest2
      else pre ++ rep ++ replaceLoop r fmt f rest

/-- `std::regex_replace(out, s.begin(), s.end(), pattern, fmt)` as used at
`main.cpp` to compute the new filename. -/
def regexReplace (r : Re) (fmt : String) (s : String) : String :=
  String.mk (replaceLoop r fmt.data (s.length + 1) s.data)

/-! ## Pattern compilation (`std::regex` construction, `main.cpp`) -/

/-- One level of the recursive-descent grammar: `0` parses an
alternation, `1` a concatenation, `2` a single quantified atom.
Returns the parsed AST, the next capture-group number, and the remaining
input.  Errors model `std::regex_error` thrown by `std::regex`
construction; constructs of ECMAScript outside the subset the program
exercises are conservatively rejected. -/
def parseLevel : Nat → Nat → Nat → List Char → Except String (Re × Nat × List Char)
  | 0, _, _, _ => .error "regex too deep"
  | f + 1, 0, gi, cs =>
    match parseLevel f 1 gi cs with
    | .error e => .error e
    | .ok (a, gi', cs') =>
      match cs' with
      | '|' :: rest =>
        match parseLevel f 0 gi' rest with
        | .error e => .error e
        | .ok (b, gi'', rest') => .ok (.alt a b, gi'', rest')
      | _ => .ok (a, gi', cs')
  | f + 1, 1, gi, cs =>
    match cs with
    | [] => .ok (.eps, gi, [])
    | ')' :: _ => .ok (.eps, gi, cs)
    | '|' :: _ => .ok (.eps, gi, cs)
    | _ =>
      match parseLevel f 2 gi cs with
      | .error e => .error e
      | .ok (a, gi', cs') =>
        let quantified : Except String (Re × List Char) :=
          match cs' with
          | '*' :: rest => .ok (.star a, rest)
          | '+' :: rest => .ok (.plus a, rest)
          | '?' :: rest => .ok (.opt a, rest)
          | _ => .ok (a, cs')
        match quantified with
        | .error e => .error e
        | .ok (a', cs'') =>
          match cs'' with
          | '*' :: _ => .error "repeated quantifier"
          | '+' :: _ => .error "repeated quantifier"
          | '?' :: _ => .error "lazy quantifier unsupported"
          | _ =>
            match parseLevel f 1 gi' cs'' with
            | .error e => .error e
            | .ok (b, gi'', rest) => .ok (.seq a' b, gi'', rest)
  | f + 1, _, gi, cs =>
    match cs with
    | [] => .error "empty atom"
    | '(' :: rest =>
      match parseLevel f 0 (gi + 1) rest with
      | .error e => .error e
      | .ok (inner, gi', rest') =>
        match rest' with
        | ')' :: rest'' => .ok (.group gi inner, gi', rest'')
        | _ => .error "missing closing parenthesis"
    | '\\' :: c :: rest =>
      if c = 'd' then .ok (.digitCls, gi, rest)
      else if c = 'w' then .ok (.wordCls, gi, rest)
      else if c = 's' then .ok (.spaceCls, gi, rest)
      else if c.isAlphanum then .error "unsupported escape"
      else .ok (.lit c, gi, rest)
    | '\\' :: [] => .error "trailing backslash"
    | '.' :: rest => .ok (.anyCls, gi, rest)
    | '*' :: _ => .error "dangling quantifier"
    | '+' :: _ => .error "dangling quantifier"
    | '?' :: _ => .error "dangling quantifier"
    | '{' :: _ => .error "brace quantifier unsupported"
    | '[' :: _ => .error "character class unsupported"
    | '^' :: _ => .error "anchor unsupported"
    | '$' :: _ => .error "anchor unsupported"
    | ')' :: _ => .error "unmatched closing parenthesis"
    | c :: rest => .ok (.lit c, gi, rest)

/-- `std::regex pattern = arguments.pattern` (`main.cpp`): compile the
pattern string, failing with the message of the thrown `std::regex_error`
when the syntax is invalid. -/
def compileRegex (pat : String) : Except String Re :=
  match parseLevel (4 * pat.length + 8) 0 1 pat.data with
  | .error e => .error e
  | .ok (r, _, rest) =>
    match rest with
    | [] => .ok r
    | _ => .error "unmatched closing parenthesis"

/-! ## Decomposition view of the substitution output -/

/-- One piece of the decomposition of a filename: literal text outside
any match, or one non-overlapping match with its captures. -/
inductive Seg where
  | txt (s : List Char)
  | hit (m : List Char) (caps : Caps)

/-- Decomposition of the input into the successive non-overlapping
leftmost matches of the pattern and the literal text between them. -/
def segsF (r : Re) : Nat → List Char → List Seg
  | 0, s => [.txt s]
  | f + 1, s =>
    match searchFrom r s with
    | none => [.txt s]
    | some (pre, m, caps, rest) =>
      if m.isEmpty then
        match rest with
        | [] => [.txt pre, .hit m caps]
        | c :: rest2 => .txt pre :: .hit m caps :: .txt [c] :: segsF r f rest2
      else .txt pre :: .hit m caps :: segsF r f rest

/-- The original text of a piece. -/
def segOrig : Seg → List Char
  | .txt s => s
  | .hit m _ => m

/-- The output text of a piece: literal text is preserved unchanged, a
match is replaced by the replacement template with `$N` expanded from its
captures. -/
def segRepl (fmt : List Char) : Seg → List Char
  | .txt s => s
  | .hit m caps => expandFmt (String.mk m) caps fmt

/-- The substitution semantics as the specification words it: every
non-overlapping match of the pattern is replaced by the expanded
replacement template and literal text outside matches is preserved. -/
def specSubstitute (r : Re) (fmt : String) (s : String) : String :=
  String.mk ((segsF r (s.length + 1) s.data).flatMap (segRepl fmt.data))

/-! ## Paths and the filesystem snapshot -/

/-- A filesystem path, as its list of components
(`std::filesystem::path` decomposes into elements).  An absolute path is
one whose first component is the empty string (the root, as in the
POSIX string form `"/a/b"` split on `'/'`). -/
abbrev Path := List String

/-- The filesystem snapshot: the set of regular-file paths, as a list in
the (arbitrary) order the directory iterator yields them.  Directories
and special files are outside the model because the pipeline filters
them out with `is_regular_file` before they are ever used. -/
abbrev FS := List Path

/-- `p.filename()` — the final path component. -/
def filenameOf (p : Path) : String := p.getLast?.getD ""

/-- `out_entry = in_entry; out_entry.replace_filename(out_filename)`
(`main.cpp`): replace the final component, keep the parent. -/
def replaceFilename (p : Path) (f : String) : Path := p.dropLast ++ [f]

/-- Is the path absolute (first component is the root)? -/
def isAbsolutePath (p : Path) : Bool := p.head? == some ""

/-- `std::filesystem::absolute(p)`: prepend the current working
directory when `p` is relative. -/
def absolutize (cwd p : Path) : Path := if isAbsolutePath p then p else cwd ++ p

/-- `path.string()`: the native string form of a path. -/
def pathToString (p : Path) : String :=
  match p with
  | "" :: rest => "/" ++ String.intercalate "/" rest
  | _ => String.intercalate "/" p

/-- `path_display_name` (`main.cpp`): the absolute path string in
recursive mode, otherwise just the filename. -/
def displayName (recursive : Bool) (cwd : Path) (p : Path) : String :=
  if recursive then pathToString (absolutize cwd p) else filenameOf p

/-- Enumeration (`main.cpp`): `recursive_directory_iterator` yields every
regular file strictly below the base path; `directory_iterator` yields
only the direct children.  The filter to regular files is implicit in the
`FS` model. -/
def enumerate (recursive : Bool) (base : Path) (fs : FS) : List Path :=
  if recursive then fs.filter (fun p => base.isPrefixOf p && p ≠ base)
  else fs.filter (fun p => p.dropLast == base && !p.isEmpty)

/-! ### Lexicographic path order (`operator<` on `std::filesystem::path`) -/

/-- Strict lexicographic order on character lists (the string comparison
underlying path element comparison). -/
def charsLtB : List Char → List Char → Bool
  | [], [] => false
  | [], _ :: _ => true
  | _ :: _, [] => false
  | a :: as, b :: bs =>
    if a < b then true else if b < a then false else charsLtB as bs

/-- Strict order on path components. -/
def strLtB (a b : String) : Bool := charsLtB a.data b.data

/-- Non-strict lexicographic order on paths, component-wise
(`std::filesystem::path::compare` semantics). -/
def pathLeB : Path → Path → Bool
  | [], _ => true
  | _ :: _, [] => false
  | a :: as, b :: bs =>
    if strLtB a b then true else if strLtB b a then false else pathLeB as bs

/-- The path order as a decidable relation. -/
def pathLe (p q : Path) : Prop := pathLeB p q = true

instance : DecidableRel pathLe := fun p q => instDecidableEqBool (pathLeB p q) true

/-- `std::ranges::sort(entries)` (`main.cpp`): sort the materialized entry
list ascending by path. -/
def sortPaths (l : List Path) : List Path := List.insertionSort pathLe l

/-! ## The pipeline -/

/-- The parsed command line (§4.1 of the design: the `arguments` struct
filled by `argp`, consumed by `rename()`).  The base path is already in
component form — string-to-path conversion is CLI plumbing. -/
structure Args where
  pattern : String
  replacement : String
  path : Option Path
  dry_run : Bool
  recursive : Bool
  quiet : Bool

/-- The fixed diagnostic tag `error_prefix` of `main.cpp`. -/
def errPre : String := "rename: "

/-- Observable run state: accumulated standard-output lines, accumulated
error-stream lines, and the filesystem snapshot. -/
structure RunSt where
  outLines : List String
  errLines : List String
  fs : FS
deriving DecidableEq

/-- Outcome of a run: normal return from `rename()` (process exits 0) or
`exit(EXIT_FAILURE)` with the observable state at that moment. -/
inductive RunResult where
  | ok (st : RunSt)
  | fatal (st : RunSt)
deriving DecidableEq

/-- The process exit code of the run. -/
def exitCode : RunResult → Nat
  | .ok _ => 0
  | .fatal _ => 1

/-- The filesystem snapshot when the process terminates. -/
def finalFS : RunResult → FS
  | .ok st => st.fs
  | .fatal st => st.fs

/-- The standard-output lines of the run. -/
def outOf : RunResult → List String
  | .ok st => st.outLines
  | .fatal st => st.outLines

/-- The error-stream lines of the run. -/
def errOf : RunResult → List String
  | .ok st => st.errLines
  | .fatal st => st.errLines

/-- The substitution engine as seen by the per-entry loop: the
`std::regex_replace` call, which either yields the new filename or throws
a runtime `std::regex_error` (carried as the message). -/
abbrev Subst := String → Except String String

/-- `std::filesystem::rename` as an oracle: the operating system decides
whether the rename succeeds (yielding the updated snapshot) or throws a
`filesystem_error` (carried as the message). -/
abbrev OsRename := Path → Path → FS → Except String FS

/-- The loop body of `rename()` (`main.cpp`) for one entry:
compute the new filename, skip when unchanged, otherwise report (unless
quiet) and apply (unless dry-run), isolating a rename failure to this
entry.  A substitution error is returned as `.error` (the caller exits
fatally). -/
def processEntry (subst : Subst) (osR : OsRename) (cwd : Path)
    (dry recu quiet : Bool) (st : RunSt) (entry : Path) : Except RunSt RunSt :=
  let inName := filenameOf entry
  match subst inName with
  | .error msg => .error { st with errLines := st.errLines ++ [errPre ++ msg] }
  | .ok outName =>
    if inName = outName then .ok st
    else
      let outEntry := replaceFilename entry outName
      let st1 :=
        if quiet then st
        else { st with outLines := st.outLines ++
          [displayName recu cwd entry ++ " -> " ++ (if dry then "(dry run)" else "")
            ++ displayName recu cwd outEntry] }
      if dry then .ok st1
      else
        match osR entry outEntry st1.fs with
        | .ok fs2 => .ok { st1 with fs := fs2 }
        | .error msg => .ok { st1 with errLines := st1.errLines ++ [errPre ++ msg] }

/-- The `for (const auto& in_entry : entries)` loop of `rename()`:
process the sorted entries in order; a substitution error aborts the
whole run fatally, everything else continues. -/
def renameLoop (subst : Subst) (osR : OsRename) (cwd : Path)
    (dry recu quiet : Bool) : RunSt → List Path → RunResult
  | st, [] => .ok st
  | st, e :: rest =>
    match processEntry subst osR cwd dry recu quiet st e with
    | .error st' => .fatal st'
    | .ok st' => renameLoop subst osR cwd dry recu quiet st' rest

/-- The whole `rename()` function of `main.cpp`: compile the pattern
(fatal on `regex_error`), resolve the base path (the argument or the
current working directory), enumerate regular files, sort, then run the
per-entry loop.  `main` returns 0 when `rename()` returns. -/
def renameRun (osR : OsRename) (a : Args) (cwd : Path) (fs : FS) : RunResult :=
  match compileRegex a.pattern with
  | .error msg => .fatal ⟨[], [errPre ++ msg], fs⟩
  | .ok pat =>
    let base := a.path.getD cwd
    let entries := enumerate a.recursive base fs
    let sorted := sortPaths entries
    renameLoop (fun s => .ok (regexReplace pat a.replacement s)) osR cwd
      a.dry_run a.recursive a.quiet ⟨[], [], fs⟩ sorted

/-- A concrete well-behaved OS rename used for witnesses: succeeds iff the
source exists, replacing it by the destination in the snapshot. -/
def fsRename : OsRename := fun src dst fs =>
  if fs.contains src then .ok (fs.map (fun p => if p = src then dst else p))
  else .error "No such file or directory"

/-- The observable state carried by either outcome of one loop step. -/
def stOf : Except RunSt RunSt → RunSt
  | .ok st => st
  | .error st => st

/-- Decidable equality for `Except`, used to evaluate concrete runs. -/
def exceptDecEqFn {ε α : Type} [DecidableEq ε] [DecidableEq α] :
    DecidableEq (Except ε α) := fun a b =>
  match a, b with
  | .error e₁, .error e₂ =>
    if h : e₁ = e₂ then .isTrue (by rw [h]) else .isFalse (fun hh => h (Except.error.inj hh))
  | .ok x, .ok y =>
    if h : x = y then .isTrue (by rw [h]) else .isFalse (fun hh => h (Except.ok.inj hh))
  | .error _, .ok _ => .isFalse (fun hh => Except.noConfusion hh)
  | .ok _, .error _ => .isFalse (fun hh => Except.noConfusion hh)

instance {ε α : Type} [DecidableEq ε] [DecidableEq α] : DecidableEq (Except ε α) :=
  exceptDecEqFn

/-! ## Concrete fixtures for witnesses -/

/-- The compiled pattern `x`. -/
def cpatX : Re := (compileRegex "x").toOption.getD .eps

/-- The compiled pattern `file_(\d+)\.txt` of the group-substitution test. -/
def c1pat : Re := (compileRegex "file_(\\d+)\\.txt").toOption.getD .eps

/-- An OS oracle that refuses to rename `ax` and otherwise behaves. -/
def failFirstOsR : OsRename := fun src dst fs =>
  if src = ["ax"] then .error "Permission denied" else fsRename src dst fs

/-- A substitution engine that raises a runtime error on `bx`. -/
def substC9 : Subst := fun s =>
  if s = "bx" then .error "complexity" else .ok (regexReplace cpatX "y" s)

/-- The concrete engine for pattern `x`, replacement `y`. -/
def substXY : Subst := fun s => .ok (regexReplace cpatX "y" s)

/-- A substitution engine that always yields `c.txt`. -/
def substC8 : Subst := fun _ => .ok "c.txt"

/-! ## Order facts about the path comparison -/

theorem charsLtB_self (a : List Char) : charsLtB a a = false := by
  induction a with
  | nil => rfl
  | cons x xs ih => simp [charsLtB, lt_irrefl, ih]

theorem charsLtB_trans {a b c : List Char} (h1 : charsLtB a b = true)
    (h2 : charsLtB b c = true) : charsLtB a c = true := by
  induction a generalizing b c with
  | nil =>
    cases b with
    | nil => simp [charsLtB] at h1
    | cons y ys =>
      cases c with
      | nil => simp [charsLtB] at h2
      | cons z zs => simp [charsLtB]
  | cons x xs ih =>
    cases b with
    | nil => simp [charsLtB] at h1
    | cons y ys =>
      cases c with
      | nil => simp [charsLtB] at h2
      | cons z zs =>
        simp only [charsLtB] at h1 h2 ⊢
        by_cases hxy : x < y
        · by_cases hyz : y < z
          · simp [lt_trans hxy hyz]
          · by_cases hzy : z < y
            · simp [hyz, hzy] at h2
            · have hyzeq : y = z := le_antisymm (not_lt.mp hzy) (not_lt.mp hyz)
              subst hyzeq
              simp [hxy]
        · by_cases hyx : y < x
          · simp [hxy, hyx] at h1
          · have hxyeq : x = y := le_antisymm (not_lt.mp hyx) (not_lt.mp hxy)
            subst hxyeq
            simp only [lt_irrefl, if_false] at h1
            by_cases hxz : x < z
            · simp [hxz]
            · by_cases hzx : z < x
              · simp [hxz, hzx] at h2
              · simp only [hxz, hzx, if_false] at h2 ⊢
                exact ih h1 h2

theorem charsLtB_eq_of_not {a b : List Char} (h1 : charsLtB a b = false)
    (h2 : charsLtB b a = false) : a = b := by
  induction a generalizing b with
  | nil =>
    cases b with
    | nil => rfl
    | cons y ys => simp [charsLtB] at h1
  | cons x xs ih =>
    cases b with
    | nil => simp [charsLtB] at h2
    | cons y ys =>
      simp only [charsLtB] at h1 h2
      by_cases hxy : x < y
      · simp [hxy] at h1
      · by_cases hyx : y < x
        · simp [hyx] at h2
        · simp only [hxy, hyx, if_false] at h1 h2
          exact congrArg₂ (· :: ·) (le_antisymm (not_lt.mp hyx) (not_lt.mp hxy)) (ih h1 h2)

theorem strLtB_self (a : String) : strLtB a a = false := charsLtB_self a.data

theorem strLtB_trans {a b c : String} (h1 : strLtB a b = true)
    (h2 : strLtB b c = true) : strLtB a c = true := charsLtB_trans h1 h2

theorem strLtB_eq_of_not {a b : String} (h1 : strLtB a b = false)
    (h2 : strLtB b a = false) : a = b := String.ext (charsLtB_eq_of_not h1 h2)

theorem pathLeB_total (a b : Path) : pathLeB a b = true ∨ pathLeB b a = true := by
  induction a generalizing b with
  | nil => exact Or.inl rfl
  | cons x xs ih =>
    cases b with
    | nil => exact Or.inr rfl
    | cons y ys =>
      simp only [pathLeB]
      rcases ih ys with h | h <;> split_ifs with h1 h2 <;> simp_all

theorem strLtB_eq_of_not_true {a b : String} (h1 : ¬strLtB a b = true)
    (h2 : ¬strLtB b a = true) : a = b :=
  strLtB_eq_of_not (by simpa using h1) (by simpa using h2)

theorem pathLeB_trans {a b c : Path} (h1 : pathLeB a b = true)
    (h2 : pathLeB b c = true) : pathLeB a c = true := by
  induction a generalizing b c with
  | nil => rfl
  | cons x xs ih =>
    cases b with
    | nil => simp [pathLeB] at h1
    | cons y ys =>
      cases c with
      | nil => simp [pathLeB] at h2
      | cons z zs =>
        simp only [pathLeB] at h1 h2 ⊢
        by_cases hxy : strLtB x y = true
        · by_cases hyz : strLtB y z = true
          · simp [strLtB_trans hxy hyz]
          · by_cases hzy : strLtB z y = true
            · simp [hyz, hzy] at h2
            · have hyzeq : y = z := strLtB_eq_of_not_true hyz hzy
              subst hyzeq
              simp [hxy]
        · by_cases hyx : strLtB y x = true
          · simp [hxy, hyx] at h1
          · have hxyeq : x = y := strLtB_eq_of_not_true hxy hyx
            subst hxyeq
            simp only [strLtB_self, if_false] at h1
            by_cases hxz : strLtB x z = true
            · simp [hxz]
            · by_cases hzx : strLtB z x = true
              · simp [hxz, hzx] at h2
              · simp only [hxz, hzx, if_false] at h2 ⊢
                exact ih h1 h2

theorem pathLeB_antisymm {a b : Path} (h1 : pathLeB a b = true)
    (h2 : pathLeB b a = true) : a = b := by
  induction a generalizing b with
  | nil =>
    cases b with
    | nil => rfl
    | cons y ys => simp [pathLeB] at h2
  | cons x xs ih =>
    cases b with
    | nil => simp [pathLeB] at h1
    | cons y ys =>
      simp only [pathLeB] at h1 h2
      by_cases hxy : strLtB x y = true
      · simp [hxy] at h2
        exact absurd (strLtB_trans h2 hxy) (by simp [strLtB_self])
      · by_cases hyx : strLtB y x = true
        · simp [hxy, hyx] at h1
        · simp only [hxy, hyx, if_false] at h1 h2
          exact congrArg₂ (· :: ·) (strLtB_eq_of_not_true hxy hyx) (ih h1 h2)

instance : IsTotal Path pathLe := ⟨pathLeB_total⟩

instance : IsTrans Path pathLe := ⟨fun _ _ _ => pathLeB_trans⟩

instance : IsAntisymm Path pathLe := ⟨fun _ _ => pathLeB_antisymm⟩

theorem sortPaths_sorted (l : List Path) : List.Sorted pathLe (sortPaths l) :=
  List.sorted_insertionSort pathLe l

theorem sortPaths_perm (l : List Path) : (sortPaths l).Perm l :=
  List.perm_insertionSort pathLe l

theorem sortPaths_eq_of_perm {l₁ l₂ : List Path} (h : l₁.Perm l₂) :
    sortPaths l₁ = sortPaths l₂ :=
  List.eq_of_perm_of_sorted ((sortPaths_perm l₁).trans (h.trans (sortPaths_perm l₂).symm))
    (sortPaths_sorted l₁) (sortPaths_sorted l₂)

/-! ## The substitution output as a decomposition into matches and
literal text (the specification reading of `regex_replace`) -/

theorem mtch_suffix : ∀ (f : Nat) (r : Re) (s : List Char) (caps : Caps)
    (pr : List Char × Caps), pr ∈ mtch f r s caps → pr.1 <:+ s := by
  intro f
  induction f with
  | zero => intro r s caps pr h; simp [mtch] at h
  | succ f ih =>
    intro r s caps pr h
    cases r with
    | eps =>
      simp only [mtch, List.mem_singleton] at h
      subst h; exact List.suffix_refl s
    | lit c =>
      cases s with
      | nil => simp [mtch] at h
      | cons x rest =>
        simp only [mtch] at h
        by_cases hx : x = c
        · simp only [hx, if_true, List.mem_singleton] at h
          subst h; exact List.suffix_cons x rest
        · simp [hx] at h
    | digitCls =>
      cases s with
      | nil => simp [mtch] at h
      | cons x rest =>
        simp only [mtch] at h
        by_cases hx : clsMatch .digitCls x
        · simp only [hx, if_true, List.mem_singleton] at h
          subst h; exact List.suffix_cons x rest
        · simp [hx] at h
    | wordCls =>
      cases s with
      | nil => simp [mtch] at h
      | cons x rest =>
        simp only [mtch] at h
        by_cases hx : clsMatch .wordCls x
        · simp only [hx, if_true, List.mem_singleton] at h
          subst h; exact List.suffix_cons x rest
        · simp [hx] at h
    | spaceCls =>
      cases s with
      | nil => simp [mtch] at h
      | cons x rest =>
        simp only [mtch] at h
        by_cases hx : clsMatch .spaceCls x
        · simp only [hx, if_true, List.mem_singleton] at h
          subst h; exact List.suffix_cons x rest
        · simp [hx] at h
    | anyCls =>
      cases s with
      | nil => simp [mtch] at h
      | cons x rest =>
        simp only [mtch] at h
        by_cases hx : clsMatch .anyCls x
        · simp only [hx, if_true, List.mem_singleton] at h
          subst h; exact List.suffix_cons x rest
        · simp [hx] at h
    | seq a b =>
      simp only [mtch, List.mem_flatMap] at h
      obtain ⟨q, hq, hpr⟩ := h
      exact (ih b q.1 q.2 pr hpr).trans (ih a s caps q hq)
    | alt a b =>
      simp only [mtch, List.mem_append] at h
      rcases h with h | h
      · exact ih a s caps pr h
      · exact ih b s caps pr h
    | star a =>
      simp only [mtch, List.mem_append, List.mem_flatMap, List.mem_singleton] at h
      rcases h with ⟨q, hq, hpr⟩ | h
      · by_cases hlt : q.1.length < s.length
        · simp only [hlt, if_true] at hpr
          exact (ih (.star a) q.1 q.2 pr hpr).trans (ih a s caps q hq)
        · simp [hlt] at hpr
      · subst h; exact List.suffix_refl s
    | plus a =>
      simp only [mtch] at h
      exact ih (.seq a (.star a)) s caps pr h
    | opt a =>
      simp only [mtch, List.mem_append, List.mem_singleton] at h
      rcases h with h | h
      · exact ih a s caps pr h
      · subst h; exact List.suffix_refl s
    | group n a =>
      simp only [mtch, List.mem_map] at h
      obtain ⟨q, hq, hpr⟩ := h
      have := ih a s caps q hq
      rw [← hpr]
      exact this

theorem matchAt_suffix {r : Re} {s rest : List Char} {caps : Caps}
    (h : matchAt r s = some (rest, caps)) : rest <:+ s := by
  unfold matchAt at h
  cases hl : mtch (matchFuel r s) r s [] with
  | nil => rw [hl] at h; simp at h
  | cons p ps =>
    rw [hl] at h
    simp only [List.head?_cons, Option.some.injEq] at h
    have hp : p ∈ mtch (matchFuel r s) r s [] := hl ▸ List.mem_cons_self p ps
    have := mtch_suffix (matchFuel r s) r s [] p hp
    rw [h] at this
    exact this

theorem searchFrom_split {r : Re} : ∀ {s pre m rest : List Char} {caps : Caps},
    searchFrom r s = some (pre, m, caps, rest) → pre ++ m ++ rest = s := by
  intro s
  induction s with
  | nil =>
    intro pre m rest caps h
    simp only [searchFrom] at h
    cases hm : matchAt r [] with
    | none => rw [hm] at h; simp at h
    | some q =>
      obtain ⟨rest', caps'⟩ := q
      rw [hm] at h
      simp only [Option.some.injEq, Prod.mk.injEq] at h
      obtain ⟨h1, h2, _, h4⟩ := h
      have : rest' = [] := List.suffix_nil.mp (matchAt_suffix hm)
      subst h1; subst h4; subst this
      simp_all
  | cons c s' ih =>
    intro pre m rest caps h
    simp only [searchFrom] at h
    cases hm : matchAt r (c :: s') with
    | some q =>
      obtain ⟨rest', caps'⟩ := q
      rw [hm] at h
      simp only [Option.some.injEq, Prod.mk.injEq] at h
      obtain ⟨h1, h2, _, h4⟩ := h
      obtain ⟨t, ht⟩ := matchAt_suffix hm
      have hlen : (c :: s').length - rest'.length = t.length := by
        rw [← ht, List.length_append]; omega
      subst h1; subst h4
      rw [← h2, hlen, ← ht, List.take_left]
      simp
    | none =>
      rw [hm] at h
      cases hs : searchFrom r s' with
      | none => rw [hs] at h; simp at h
      | some q =>
        obtain ⟨pre', m', caps', rest'⟩ := q
        rw [hs] at h
        simp only [Option.some.injEq, Prod.mk.injEq] at h
        obtain ⟨h1, h2, _, h4⟩ := h
        subst h1; subst h2; subst h4
        have := ih hs
        simp only [List.cons_append, List.append_assoc] at this ⊢
        rw [this]

theorem segsF_orig (r : Re) : ∀ (f : Nat) (s : List Char),
    (segsF r f s).flatMap segOrig = s := by
  intro f
  induction f with
  | zero => intro s; simp [segsF, segOrig]
  | succ f ih =>
    intro s
    simp only [segsF]
    cases hs : searchFrom r s with
    | none => simp [segOrig]
    | some q =>
      obtain ⟨pre, m, caps, rest⟩ := q
      have hsplit := searchFrom_split hs
      by_cases hm : m.isEmpty
      · have hm' : m = [] := by simpa using hm
        subst hm'
        cases rest with
        | nil =>
          simp only [List.isEmpty_nil, if_true]
          simp only [List.flatMap_cons, List.flatMap_nil, segOrig, List.append_nil]
          simpa using hsplit
        | cons c rest2 =>
          simp only [List.isEmpty_nil, if_true]
          simp only [List.flatMap_cons, segOrig]
          rw [ih rest2]
          simpa using hsplit
      · simp only [hm, Bool.false_eq_true, if_false]
        simp only [List.flatMap_cons, segOrig]
        rw [ih rest]
        simpa using hsplit

theorem replaceLoop_eq_segsF (r : Re) (fmt : List Char) : ∀ (f : Nat) (s : List Char),
    replaceLoop r fmt f s = (segsF r f s).flatMap (segRepl fmt) := by
  intro f
  induction f with
  | zero => intro s; simp [replaceLoop, segsF, segRepl]
  | succ f ih =>
    intro s
    simp only [replaceLoop, segsF]
    cases hs : searchFrom r s with
    | none => simp [segRepl]
    | some q =>
      obtain ⟨pre, m, caps, rest⟩ := q
      by_cases hm : m.isEmpty
      · have hm' : m = [] := by simpa using hm
        subst hm'
        cases rest with
        | nil => simp [segRepl]
        | cons c rest2 =>
          simp only [List.isEmpty_nil, if_true]
          simp only [List.flatMap_cons, segRepl]
          rw [ih rest2]
          simp
      · simp only [hm, Bool.false_eq_true, if_false]
        simp only [List.flatMap_cons, segRepl]
        rw [ih rest]
        simp

/-- `regex_replace` computes exactly the spec-level substitution. -/
theorem regexReplace_eq_spec (r : Re) (fmt s : String) :
    regexReplace r fmt s = specSubstitute r fmt s :=
  congrArg String.mk (replaceLoop_eq_segsF r fmt.data (s.length + 1) s.data)

theorem replaceLoop_no_match {r : Re} {fmt s : List Char}
    (h : searchFrom r s = none) : ∀ f, replaceLoop r fmt f s = s := by
  intro f
  cases f with
  | zero => rfl
  | succ f => simp [replaceLoop, h]

/-- When the pattern matches nowhere, substitution is the identity. -/
theorem regexReplace_no_match {r : Re} {fmt s : String}
    (h : searchFrom r s.data = none) : regexReplace r fmt s = s := by
  unfold regexReplace
  rw [replaceLoop_no_match h]

/-! ## Behavior of the per-entry loop -/

theorem renameLoop_append (subst : Subst) (osR : OsRename) (cwd : Path)
    (dry recu quiet : Bool) : ∀ (xs ys : List Path) (st : RunSt),
    renameLoop subst osR cwd dry recu quiet st (xs ++ ys)
      = match renameLoop subst osR cwd dry recu quiet st xs with
        | .ok st' => renameLoop subst osR cwd dry recu quiet st' ys
        | .fatal st' => .fatal st' := by
  intro xs
  induction xs with
  | nil => intro ys st; rfl
  | cons x xs ih =>
    intro ys st
    simp only [List.cons_append, renameLoop]
    cases processEntry subst osR cwd dry recu quiet st x with
    | error st' => rfl
    | ok st' => exact ih ys st'

/-- The standard-output lines of the loop depend only on the substitution
engine, the flags and the entry list — not on the OS rename oracle, the
filesystem snapshot or the error lines accumulated so far. -/
theorem renameLoop_out (subst : Subst) (osR₁ osR₂ : OsRename) (cwd : Path)
    (dry recu quiet : Bool) : ∀ (es : List Path) (o : List String)
    (e₁ e₂ : List String) (f₁ f₂ : FS),
    outOf (renameLoop subst osR₁ cwd dry recu quiet ⟨o, e₁, f₁⟩ es)
      = outOf (renameLoop subst osR₂ cwd dry recu quiet ⟨o, e₂, f₂⟩ es) := by
  intro es
  induction es with
  | nil => intro o e₁ e₂ f₁ f₂; rfl
  | cons e rest ih =>
    intro o e₁ e₂ f₁ f₂
    simp only [renameLoop, processEntry]
    cases hsub : subst (filenameOf e) with
    | error msg => rfl
    | ok outName =>
      by_cases hne : filenameOf e = outName
      · simp only [hne, if_true]
        exact ih o e₁ e₂ f₁ f₂
      · simp only [hne, if_false]
        cases quiet with
        | true =>
          simp only [if_true]
          cases dry with
          | true => exact ih o e₁ e₂ f₁ f₂
          | false =>
            simp only [Bool.false_eq_true, if_false]
            cases osR₁ e (replaceFilename e outName) f₁ with
            | ok g₁ =>
              cases osR₂ e (replaceFilename e outName) f₂ with
              | ok g₂ => exact ih o e₁ e₂ g₁ g₂
              | error m₂ => exact ih o e₁ (e₂ ++ [errPre ++ m₂]) g₁ f₂
            | error m₁ =>
              cases osR₂ e (replaceFilename e outName) f₂ with
              | ok g₂ => exact ih o (e₁ ++ [errPre ++ m₁]) e₂ f₁ g₂
              | error m₂ => exact ih o (e₁ ++ [errPre ++ m₁]) (e₂ ++ [errPre ++ m₂]) f₁ f₂
        | false =>
          simp only [Bool.false_eq_true, if_false]
          cases dry with
          | true => exact ih _ e₁ e₂ f₁ f₂
          | false =>
            simp only [Bool.false_eq_true, if_false]
            cases osR₁ e (replaceFilename e outName) f₁ with
            | ok g₁ =>
              cases osR₂ e (replaceFilename e outName) f₂ with
              | ok g₂ => exact ih _ e₁ e₂ g₁ g₂
              | error m₂ => exact ih _ e₁ (e₂ ++ [errPre ++ m₂]) g₁ f₂
            | error m₁ =>
              cases osR₂ e (replaceFilename e outName) f₂ with
              | ok g₂ => exact ih _ (e₁ ++ [errPre ++ m₁]) e₂ f₁ g₂
              | error m₂ => exact ih _ (e₁ ++ [errPre ++ m₁]) (e₂ ++ [errPre ++ m₂]) f₁ f₂

/-- When the substitution engine never raises, the loop always returns
normally: rename failures are isolated and non-fatal. -/
theorem renameLoop_ok (subst : Subst) (osR : OsRename) (cwd : Path)
    (dry recu quiet : Bool) (hsub : ∀ s, ∃ t, subst s = .ok t) :
    ∀ (es : List Path) (st : RunSt), ∃ st',
    renameLoop subst osR cwd dry recu quiet st es = .ok st' := by
  intro es
  induction es with
  | nil => intro st; exact ⟨st, rfl⟩
  | cons e rest ih =>
    intro st
    obtain ⟨t, ht⟩ := hsub (filenameOf e)
    simp only [renameLoop, processEntry, ht]
    by_cases hne : filenameOf e = t
    · simp only [hne, if_true]
      exact ih st
    · simp only [hne, if_false]
      cases dry with
      | true => exact ih _
      | false =>
        simp only [Bool.false_eq_true, if_false]
        cases osR e (replaceFilename e t) _ with
        | ok g => exact ih _
        | error m => exact ih _

/-- With `dry_run` set the loop never changes the filesystem snapshot. -/
theorem renameLoop_dry (subst : Subst) (osR : OsRename) (cwd : Path)
    (recu quiet : Bool) : ∀ (es : List Path) (st : RunSt),
    finalFS (renameLoop subst osR cwd true recu quiet st es) = st.fs := by
  intro es
  induction es with
  | nil => intro st; rfl
  | cons e rest ih =>
    intro st
    simp only [renameLoop, processEntry]
    cases hsub : subst (filenameOf e) with
    | error msg => rfl
    | ok outName =>
      by_cases hne : filenameOf e = outName
      · simp only [hne, if_true]
        exact ih st
      · simp only [hne, if_false, if_true]
        cases quiet <;> exact ih _

/-- The quiet flag changes only the standard-output lines: the final
filesystem, the error lines and the exit code are unchanged. -/
theorem renameLoop_quiet (subst : Subst) (osR : OsRename) (cwd : Path)
    (dry recu : Bool) : ∀ (es : List Path) (o₁ o₂ e : List String) (f : FS),
    finalFS (renameLoop subst osR cwd dry recu false ⟨o₁, e, f⟩ es)
      = finalFS (renameLoop subst osR cwd dry recu true ⟨o₂, e, f⟩ es)
    ∧ errOf (renameLoop subst osR cwd dry recu false ⟨o₁, e, f⟩ es)
      = errOf (renameLoop subst osR cwd dry recu true ⟨o₂, e, f⟩ es)
    ∧ exitCode (renameLoop subst osR cwd dry recu false ⟨o₁, e, f⟩ es)
      = exitCode (renameLoop subst osR cwd dry recu true ⟨o₂, e, f⟩ es) := by
  intro es
  induction es with
  | nil => intro o₁ o₂ e f; exact ⟨rfl, rfl, rfl⟩
  | cons x rest ih =>
    intro o₁ o₂ e f
    simp only [renameLoop, processEntry]
    cases hsub : subst (filenameOf x) with
    | error msg => exact ⟨rfl, rfl, rfl⟩
    | ok outName =>
      by_cases hne : filenameOf x = outName
      · simp only [hne, if_true]
        exact ih o₁ o₂ e f
      · simp only [hne, if_false, if_true, Bool.false_eq_true]
        cases dry with
        | true => exact ih _ o₂ e f
        | false =>
          simp only [Bool.false_eq_true, if_false]
          cases osR x (replaceFilename x outName) f with
          | ok g => exact ih _ o₂ e g
          | error m => exact ih _ o₂ (e ++ [errPre ++ m]) f

/-- Enumeration respects permutation of the snapshot: it is a filter. -/
theorem enumerate_perm {fs₁ fs₂ : FS} (h : fs₁.Perm fs₂) (recu : Bool) (base : Path) :
    (enumerate recu base fs₁).Perm (enumerate recu base fs₂) := by
  unfold enumerate
  cases recu with
  | true => exact h.filter _
  | false => exact h.filter _

/-! ## The claims -/

/-- C1: for every filename the computed output filename is the result of
replacing every non-overlapping match of the compiled pattern with the
replacement template (`$N` expanding to the text of the N-th capture
group, empty if absent), literal text outside matches preserved
unchanged; in particular `file_(\d+)\.txt` with `File_$1.txt` maps
`file_42.txt` to `File_42.txt` and leaves `file_abc.txt` unchanged. -/
theorem c1_substitution_correct :
    (∀ (r : Re) (fmt s : String), regexReplace r fmt s = specSubstitute r fmt s)
    ∧ (∀ (r : Re) (f : Nat) (s : List Char), (segsF r f s).flatMap segOrig = s)
    ∧ compileRegex "file_(\\d+)\\.txt" = .ok c1pat
    ∧ regexReplace c1pat "File_$1.txt" "file_42.txt" = "File_42.txt"
    ∧ regexReplace c1pat "File_$1.txt" "file_abc.txt" = "file_abc.txt" :=
  ⟨regexReplace_eq_spec, segsF_orig, by decide, by decide, by decide⟩

/-- C2: the entry set is materialized and sorted ascending by full path
before any rename is applied, and the run's standard output is the same
for any two snapshots of the same entry set (in any filesystem iteration
order) and for any OS rename behavior. -/
theorem c2_sorted_deterministic :
    ∀ (a : Args) (cwd : Path) (osR₁ osR₂ : OsRename) (fs₁ fs₂ : FS),
      fs₁.Perm fs₂ →
      sortPaths (enumerate a.recursive (a.path.getD cwd) fs₁)
        = sortPaths (enumerate a.recursive (a.path.getD cwd) fs₂)
      ∧ List.Sorted pathLe (sortPaths (enumerate a.recursive (a.path.getD cwd) fs₁))
      ∧ (sortPaths (enumerate a.recursive (a.path.getD cwd) fs₁)).Perm
          (enumerate a.recursive (a.path.getD cwd) fs₁)
      ∧ outOf (renameRun osR₁ a cwd fs₁) = outOf (renameRun osR₂ a cwd fs₂) := by
  intro a cwd osR₁ osR₂ fs₁ fs₂ h
  have hsort : sortPaths (enumerate a.recursive (a.path.getD cwd) fs₁)
      = sortPaths (enumerate a.recursive (a.path.getD cwd) fs₂) :=
    sortPaths_eq_of_perm (enumerate_perm h a.recursive (a.path.getD cwd))
  refine ⟨hsort, sortPaths_sorted _, sortPaths_perm _, ?_⟩
  unfold renameRun
  cases hc : compileRegex a.pattern with
  | error msg => rfl
  | ok pat =>
    simp only []
    rw [hsort]
    exact renameLoop_out _ osR₁ osR₂ cwd a.dry_run a.recursive a.quiet _ [] [] [] fs₁ fs₂

theorem c2_sorted_deterministic_witness :
    ([["b"], ["a"]] : FS).Perm [["a"], ["b"]]
    ∧ (sortPaths (enumerate false (([] : Path)) [["b"], ["a"]])
        = sortPaths (enumerate false ([] : Path) [["a"], ["b"]])
      ∧ List.Sorted pathLe (sortPaths (enumerate false ([] : Path) [["b"], ["a"]]))
      ∧ (sortPaths (enumerate false ([] : Path) [["b"], ["a"]])).Perm
          (enumerate false ([] : Path) [["b"], ["a"]])
      ∧ outOf (renameRun fsRename ⟨"x", "y", some [], false, false, false⟩ [""] [["b"], ["a"]])
        = outOf (renameRun failFirstOsR ⟨"x", "y", some [], false, false, false⟩ [""] [["a"], ["b"]])) :=
  ⟨by decide,
   c2_sorted_deterministic ⟨"x", "y", some [], false, false, false⟩ [""] fsRename failFirstOsR
     [["b"], ["a"]] [["a"], ["b"]] (by decide)⟩

/-- C3: the destination path replaces only the filename component of the
source path, keeping the parent directory; a recursive rename of
`sub/old.txt` yields `sub/new.txt`. -/
theorem c3_parent_preserved :
    (∀ (entry : Path) (f : String),
      (replaceFilename entry f).dropLast = entry.dropLast
      ∧ filenameOf (replaceFilename entry f) = f)
    ∧ renameRun fsRename ⟨"old", "new", some ["d"], false, true, true⟩ [""]
        [["d", "sub", "old.txt"]] = .ok ⟨[], [], [["d", "sub", "new.txt"]]⟩ := by
  constructor
  · intro entry f
    constructor
    · simp [replaceFilename]
    · simp [replaceFilename, filenameOf]
  · decide

/-- C4: a failing per-entry rename emits a prefixed diagnostic to the
error stream and the run continues with the remaining entries; the exit
code is 0 despite per-entry failures. -/
theorem c4_isolated_failure :
    (∀ (osR : OsRename) (a : Args) (cwd : Path) (fs : FS) (pat : Re),
      compileRegex a.pattern = .ok pat → exitCode (renameRun osR a cwd fs) = 0)
    ∧ renameRun failFirstOsR ⟨"x", "y", some [], false, false, true⟩ [""] [["ax"], ["bx"]]
        = .ok ⟨[], [errPre ++ "Permission denied"], [["ax"], ["by"]]⟩ := by
  constructor
  · intro osR a cwd fs pat hc
    unfold renameRun
    rw [hc]
    dsimp only
    obtain ⟨st', h⟩ := renameLoop_ok (fun s => .ok (regexReplace pat a.replacement s)) osR cwd
      a.dry_run a.recursive a.quiet (fun s => ⟨_, rfl⟩)
      (sortPaths (enumerate a.recursive (a.path.getD cwd) fs)) ⟨[], [], fs⟩
    rw [h]
    rfl
  · decide

theorem c4_isolated_failure_witness :
    compileRegex "x" = .ok cpatX
    ∧ exitCode (renameRun failFirstOsR ⟨"x", "y", some [], false, false, true⟩ [""]
        [["ax"], ["bx"]]) = 0 :=
  ⟨by decide,
   c4_isolated_failure.1 failFirstOsR ⟨"x", "y", some [], false, false, true⟩ [""]
     [["ax"], ["bx"]] cpatX (by decide)⟩

/-- C5: an entry whose computed filename equals the original is skipped
entirely — the loop state is unchanged (no report line, no rename), and
a filename the pattern does not match anywhere is computed unchanged. -/
theorem c5_noop_skip :
    (∀ (r : Re) (fmt s : String), searchFrom r s.data = none → regexReplace r fmt s = s)
    ∧ (∀ (subst : Subst) (osR : OsRename) (cwd : Path) (dry recu quiet : Bool)
        (st : RunSt) (e : Path), subst (filenameOf e) = .ok (filenameOf e) →
        processEntry subst osR cwd dry recu quiet st e = .ok st) := by
  constructor
  · intro r fmt s h
    exact regexReplace_no_match h
  · intro subst osR cwd dry recu quiet st e h
    simp [processEntry, h]

theorem c5_noop_skip_witness :
    (searchFrom cpatX ("ab".data) = none ∧ regexReplace cpatX "y" "ab" = "ab")
    ∧ (substXY (filenameOf ["ab"]) = .ok (filenameOf ["ab"])
      ∧ processEntry substXY fsRename [] false false false ⟨[], [], [["ab"]]⟩ ["ab"]
          = .ok ⟨[], [], [["ab"]]⟩) :=
  ⟨⟨by decide, c5_noop_skip.1 cpatX "y" "ab" (by decide)⟩,
   ⟨by decide,
    c5_noop_skip.2 substXY fsRename [] false false false ⟨[], [], [["ab"]]⟩ ["ab"] (by decide)⟩⟩

/-- C6: with dry-run set, the filesystem snapshot after the run equals the
snapshot before the run, for every OS oracle and every match outcome. -/
theorem c6_dry_run_pure :
    ∀ (osR : OsRename) (a : Args) (cwd : Path) (fs : FS),
      a.dry_run = true → finalFS (renameRun osR a cwd fs) = fs := by
  intro osR a cwd fs h
  unfold renameRun
  cases hc : compileRegex a.pattern with
  | error msg => rfl
  | ok pat =>
    simp only [h]
    exact renameLoop_dry _ osR cwd a.recursive a.quiet _ ⟨[], [], fs⟩

theorem c6_dry_run_pure_witness :
    (Args.dry_run ⟨"x", "y", some [], true, false, false⟩) = true
    ∧ finalFS (renameRun fsRename ⟨"x", "y", some [], true, false, false⟩ [""] [["ax"]])
        = [["ax"]] :=
  ⟨rfl, c6_dry_run_pure fsRename ⟨"x", "y", some [], true, false, false⟩ [""] [["ax"]] rfl⟩

/-- C7: a pattern that fails to compile makes the run fatal immediately:
a prefixed diagnostic on the error stream, no standard output, the
filesystem untouched, and a non-zero exit code. -/
theorem c7_invalid_regex_fatal :
    ∀ (osR : OsRename) (a : Args) (cwd : Path) (fs : FS) (msg : String),
      compileRegex a.pattern = .error msg →
      renameRun osR a cwd fs = .fatal ⟨[], [errPre ++ msg], fs⟩
      ∧ exitCode (renameRun osR a cwd fs) ≠ 0 := by
  intro osR a cwd fs msg h
  unfold renameRun
  rw [h]
  exact ⟨rfl, by simp [exitCode]⟩

theorem c7_invalid_regex_fatal_witness :
    compileRegex "(" = .error "missing closing parenthesis"
    ∧ renameRun fsRename ⟨"(", "y", some [], false, false, false⟩ [""] [["ax"]]
        = .fatal ⟨[], [errPre ++ "missing closing parenthesis"], [["ax"]]⟩
    ∧ exitCode (renameRun fsRename ⟨"(", "y", some [], false, false, false⟩ [""] [["ax"]]) ≠ 0 :=
  ⟨by decide,
   (c7_invalid_regex_fatal fsRename ⟨"(", "y", some [], false, false, false⟩ [""] [["ax"]]
     "missing closing parenthesis" (by decide)).1,
   (c7_invalid_regex_fatal fsRename ⟨"(", "y", some [], false, false, false⟩ [""] [["ax"]]
     "missing closing parenthesis" (by decide)).2⟩

/-- C8: a reported entry appends exactly the line
`display(source) ++ " -> " ++ (dry-run marker) ++ display(destination)`,
where the marker is the literal `(dry run)` with no separating space, and
`display` is the absolute path string in recursive mode and the bare
filename otherwise. -/
theorem c8_report_format :
    ∀ (subst : Subst) (osR : OsRename) (cwd : Path) (dry recu : Bool)
      (st : RunSt) (e : Path) (f : String),
      subst (filenameOf e) = .ok f → filenameOf e ≠ f →
      (stOf (processEntry subst osR cwd dry recu false st e)).outLines
        = st.outLines ++ [displayName recu cwd e ++ " -> "
            ++ (if dry then "(dry run)" else "")
            ++ displayName recu cwd (replaceFilename e f)] := by
  intro subst osR cwd dry recu st e f hsub hne
  simp only [processEntry, hsub, hne, if_false, Bool.false_eq_true]
  cases dry with
  | true => rfl
  | false =>
    simp only [Bool.false_eq_true, if_false]
    cases osR e (replaceFilename e f) st.fs with
    | ok g => rfl
    | error m => rfl

theorem c8_report_format_witness :
    substC8 (filenameOf ["d", "b.txt"]) = .ok "c.txt"
    ∧ filenameOf ["d", "b.txt"] ≠ "c.txt"
    ∧ (stOf (processEntry substC8 fsRename ["", "h"] true true false
        ⟨[], [], [["d", "b.txt"]]⟩ ["d", "b.txt"])).outLines
        = [] ++ [displayName true ["", "h"] ["d", "b.txt"] ++ " -> "
            ++ (if true then "(dry run)" else "")
            ++ displayName true ["", "h"] (replaceFilename ["d", "b.txt"] "c.txt")]
    ∧ displayName true ["", "h"] ["d", "b.txt"] ++ " -> "
        ++ (if true then "(dry run)" else "")
        ++ displayName true ["", "h"] (replaceFilename ["d", "b.txt"] "c.txt")
        = "/h/d/b.txt -> (dry run)/h/d/c.txt" :=
  ⟨by decide, by decide,
   c8_report_format substC8 fsRename ["", "h"] true true
     ⟨[], [], [["d", "b.txt"]]⟩ ["d", "b.txt"] "c.txt" (by decide) (by decide),
   by decide⟩

/-- C9: a runtime error of the substitution engine aborts the run fatally
at that entry with a prefixed diagnostic and a non-zero exit code, while
every rename already applied to earlier entries in the sorted order
remains applied (the error-state filesystem is the one reached so far)
and later entries are never processed. -/
theorem c9_substitution_error_aborts :
    ∀ (subst : Subst) (osR : OsRename) (cwd : Path) (dry recu quiet : Bool)
      (st st₁ : RunSt) (es₁ es₂ : List Path) (e : Path) (msg : String),
      renameLoop subst osR cwd dry recu quiet st es₁ = .ok st₁ →
      subst (filenameOf e) = .error msg →
      renameLoop subst osR cwd dry recu quiet st (es₁ ++ e :: es₂)
        = .fatal { st₁ with errLines := st₁.errLines ++ [errPre ++ msg] }
      ∧ exitCode (renameLoop subst osR cwd dry recu quiet st (es₁ ++ e :: es₂)) = 1 := by
  intro subst osR cwd dry recu quiet st st₁ es₁ es₂ e msg h1 h2
  have : renameLoop subst osR cwd dry recu quiet st (es₁ ++ e :: es₂)
      = .fatal { st₁ with errLines := st₁.errLines ++ [errPre ++ msg] } := by
    rw [renameLoop_append, h1]
    simp only [renameLoop, processEntry, h2]
  exact ⟨this, by rw [this]; rfl⟩

theorem c9_substitution_error_aborts_witness :
    renameLoop substC9 fsRename [] false false true ⟨[], [], [["ax"], ["bx"]]⟩ [["ax"]]
      = .ok ⟨[], [], [["ay"], ["bx"]]⟩
    ∧ substC9 (filenameOf ["bx"]) = .error "complexity"
    ∧ renameLoop substC9 fsRename [] false false true ⟨[], [], [["ax"], ["bx"]]⟩
        ([["ax"]] ++ ["bx"] :: [])
        = .fatal ⟨[], [] ++ [errPre ++ "complexity"], [["ay"], ["bx"]]⟩
    ∧ exitCode (renameLoop substC9 fsRename [] false false true ⟨[], [], [["ax"], ["bx"]]⟩
        ([["ax"]] ++ ["bx"] :: [])) = 1 :=
  ⟨by decide, by decide,
   (c9_substitution_error_aborts substC9 fsRename [] false false true
     ⟨[], [], [["ax"], ["bx"]]⟩ ⟨[], [], [["ay"], ["bx"]]⟩ [["ax"]] [] ["bx"] "complexity"
     (by decide) (by decide)).1,
   (c9_substitution_error_aborts substC9 fsRename [] false false true
     ⟨[], [], [["ax"], ["bx"]]⟩ ⟨[], [], [["ay"], ["bx"]]⟩ [["ax"]] [] ["bx"] "complexity"
     (by decide) (by decide)).2⟩

/-- C10: the quiet flag affects only standard-output reporting — the final
filesystem, the error diagnostics and the exit code of the run are the
same with and without it. -/
theorem c10_quiet_only_output :
    ∀ (osR : OsRename) (a : Args) (cwd : Path) (fs : FS),
      finalFS (renameRun osR { a with quiet := false } cwd fs)
        = finalFS (renameRun osR { a with quiet := true } cwd fs)
      ∧ errOf (renameRun osR { a with quiet := false } cwd fs)
        = errOf (renameRun osR { a with quiet := true } cwd fs)
      ∧ exitCode (renameRun osR { a with quiet := false } cwd fs)
        = exitCode (renameRun osR { a with quiet := true } cwd fs) := by
  intro osR a cwd fs
  unfold renameRun
  cases hc : compileRegex a.pattern with
  | error msg => exact ⟨rfl, rfl, rfl⟩
  | ok pat =>
    exact renameLoop_quiet (fun s => .ok (regexReplace pat a.replacement s)) osR cwd
      a.dry_run a.recursive _ [] [] [] fs

end Rename
